import Mathlib

/-!
# Verification of the pyGSTi gate-set calculus core

Shallow embedding, in Lean 4, of the parts of the repository that the
frozen claims are about:

* `packages/pygsti/objects/gateset.py` — the `GateSet` model container:
  parameter vectorization (`num_params`, `to_vector`, `from_vector`,
  `get_vector_offsets`), the `povm_identity` setter, basis metadata, and
  the non-gauge projector construction;
* `packages/GST/BasisTools.py` — the basis-transformation layer:
  Gell-Mann and Pauli-product basis construction, the Standard-basis
  transform matrices, basis-change round trips, and the direct-sum
  expand/contract maps.

Numbers: the Python code computes with IEEE floats; the embedding uses
exact arithmetic (`ℚ` for the purely structural gate-set layer, `ℝ`/`ℂ`
for the linear-algebra layer) so that the algebraic content of each claim
can be settled exactly.  The gate/SPAM-vector operator classes
(`gate.py`, `spamvec.py`, `labeldicts.py`) are not among the repository
files available here, so the operator capability set is modelled from the
spec where noted.
-/

namespace PyGSTi

/-! ## Parameterized operator abstraction (modelled from the spec)

The operator classes live in `gate.py`/`spamvec.py`, which are not in the
available sources; only `gateset.py` calls them.  They are modelled from
the spec's §3/§4.2: a closed variant set {Full, TP-constrained, Static}
over gates and SPAM vectors, each exposing its raw elements, a parameter
count, `toVector`/`fromVector` and the derivative of raw elements with
respect to parameters. -/

/-- Modelled from the spec: the operator variants of §4.2 (`gate.py` and
`spamvec.py` are absent from the sources).  "Full: every element is a free
parameter.  TP-constrained (gates): first row fixed to `[1,0,...,0]`;
(prep vectors): first element fixed.  Static: zero free parameters."
Raw matrices are stored flattened row-major, as numpy vectorizes them. -/
inductive Op where
  | full (raw : List ℚ)
  | tpGate (d : ℕ) (rest : List ℚ)
  | tpVec (first : ℚ) (rest : List ℚ)
  | static (raw : List ℚ)
deriving DecidableEq

namespace Op

/-- The fixed first row `[1,0,...,0]` of a TP-constrained gate of
dimension `d`, flattened. -/
def tpFirstRow (d : ℕ) : List ℚ := 1 :: List.replicate (d - 1) 0

/-- Modelled from the spec: the operator's current raw matrix/vector
elements, flattened. -/
def raw : Op → List ℚ
  | full v => v
  | tpGate d rest => tpFirstRow d ++ rest
  | tpVec f rest => f :: rest
  | static v => v

/-- The number of raw elements (`obj.size` in numpy terms). -/
def size (op : Op) : ℕ := op.raw.length

/-- Modelled from the spec: `numParams()`, the number of free parameters
of the operator. -/
def numParams : Op → ℕ
  | full v => v.length
  | tpGate _ rest => rest.length
  | tpVec _ rest => rest.length
  | static _ => 0

/-- Modelled from the spec: `toVector()`, the flat parameter vector. -/
def toVector : Op → List ℚ
  | full v => v
  | tpGate _ rest => rest
  | tpVec _ rest => rest
  | static _ => []

/-- Modelled from the spec: `fromVector(w)` for a parameter slice `w` of
the operator's own length.  (`GateSet.from_vector` always passes the
operator exactly `numParams` entries, slicing `v[off:off+np]`.) -/
def fromVector : Op → List ℚ → Op
  | full _, w => full w
  | tpGate d _, w => tpGate d w
  | tpVec f _, w => tpVec f w
  | static v, _ => static v

theorem toVector_length (op : Op) : op.toVector.length = op.numParams := by
  cases op <;> rfl

theorem fromVector_toVector (op : Op) : op.fromVector op.toVector = op := by
  cases op <;> rfl

end Op

/-! ## The GateSet model container (`gateset.py`)

`GateSet` owns three ordered label→operator dictionaries (preps, effects,
gates), SPAM-label definitions, an optional identity vector, an optional
dimension, and basis metadata `(name, dim-or-blockdims)`.  The ordered
dictionaries are embedded as association lists in insertion order. -/

structure GateSetM where
  preps : List (String × Op)
  effects : List (String × Op)
  gates : List (String × Op)
  povmIdentity : Option Op
  spamdefs : List (String × String × String)
  dim : Option ℕ
  basisName : String
  basisDim : Option (ℕ ⊕ List ℕ)
deriving DecidableEq

namespace GateSetM

/-- The fixed vectorization order of `gateset.py`: all preps, then all
effects, then all gates, each in insertion order
(`self.preps.values() + self.effects.values() + self.gates.values()`). -/
def allOps (gs : GateSetM) : List (String × Op) :=
  gs.preps ++ gs.effects ++ gs.gates

/-- `GateSet.num_params` (gateset.py:469-482): the sum of the operators'
`num_params()` over preps, effects and gates. -/
def num_params (gs : GateSetM) : ℕ :=
  (gs.preps.map (fun p => p.2.numParams)).sum
    + (gs.effects.map (fun p => p.2.numParams)).sum
    + (gs.gates.map (fun p => p.2.numParams)).sum

/-- `GateSet.num_elements` (gateset.py:485-501): the sum of raw element
counts over preps, effects and gates. -/
def num_elements (gs : GateSetM) : ℕ :=
  (gs.preps.map (fun p => p.2.size)).sum
    + (gs.effects.map (fun p => p.2.size)).sum
    + (gs.gates.map (fun p => p.2.size)).sum

/-- `GateSet.to_vector` (gateset.py:531-550): walk the fixed order and
concatenate each operator's parameter vector. -/
def to_vector (gs : GateSetM) : List ℚ :=
  (allOps gs).flatMap (fun p => p.2.toVector)

/-- One pass of the `from_vector` loop: feed each operator its
`v[off:off+np]` slice, returning the loaded operators and what is left
of `v`. -/
def loadOps : List (String × Op) → List ℚ → List (String × Op) × List ℚ
  | [], v => ([], v)
  | (l, op) :: rest, v =>
    let op' := op.fromVector (v.take op.numParams)
    let (rest', v') := loadOps rest (v.drop op.numParams)
    ((l, op') :: rest', v')

/-- `GateSet.from_vector` (gateset.py:553-574): asserts
`len(v) == num_params()` (`none` = `AssertionError`), loads preps,
effects, gates in the fixed order, then calls `reset_basis()`, which sets
the basis metadata to `("unknown", None)`. -/
def from_vector (gs : GateSetM) (v : List ℚ) : Option GateSetM :=
  if v.length = num_params gs then
    let (preps', v1) := loadOps gs.preps v
    let (effects', v2) := loadOps gs.effects v1
    let (gates', _) := loadOps gs.gates v2
    some { gs with preps := preps', effects := effects', gates := gates',
                   basisName := "unknown", basisDim := none }
  else none

/-- The offset-accumulating loop of `get_vector_offsets`. -/
def offsetsFrom : List (String × Op) → ℕ → List (String × ℕ × ℕ)
  | [], _ => []
  | (l, op) :: rest, off =>
    (l, off, off + op.numParams) :: offsetsFrom rest (off + op.numParams)

/-- `GateSet.get_vector_offsets` (gateset.py:577-597): per label, the
half-open `(start, end)` range of its parameters, walking preps, effects,
gates in the fixed order. -/
def get_vector_offsets (gs : GateSetM) : List (String × ℕ × ℕ) :=
  offsetsFrom (allOps gs) 0

/-- `GateSet.get_basis_name` (gateset.py:156-172). -/
def get_basis_name (gs : GateSetM) : String := gs.basisName

/-- `GateSet.get_basis_dimension` (gateset.py:175-196). -/
def get_basis_dimension (gs : GateSetM) : Option (ℕ ⊕ List ℕ) := gs.basisDim

/-- The `povm_identity` setter (gateset.py:112-126) for a vector value:
if the dimension is unset it becomes `len(value)`; then a differing
length raises `ValueError` (flag `false`, and — as in the Python, where
the raise happens before any store — the state it leaves behind); else
the identity vector is stored as a `StaticSPAMVec` (always static). -/
def povmIdentitySet (gs : GateSetM) (value : List ℚ) : GateSetM × Bool :=
  let gs1 := if gs.dim = none then { gs with dim := some value.length } else gs
  if gs1.dim ≠ some value.length then (gs1, false)
  else ({ gs1 with povmIdentity := some (Op.static value) }, true)

/-! ### Vectorization lemmas -/

theorem loadOps_append (ops : List (String × Op)) (rest : List ℚ) :
    loadOps ops ((ops.flatMap fun p => p.2.toVector) ++ rest) = (ops, rest) := by
  induction ops with
  | nil => rfl
  | cons hd tl ih =>
    obtain ⟨l, op⟩ := hd
    simp only [List.flatMap_cons, List.append_assoc, loadOps]
    rw [List.take_append_of_le_length (by rw [Op.toVector_length]),
        List.take_of_length_le (by rw [Op.toVector_length]),
        List.drop_append_of_le_length (by rw [Op.toVector_length]),
        List.drop_of_length_le (by rw [Op.toVector_length]), List.nil_append]
    simp [ih, Op.fromVector_toVector]

theorem loadOps_labels (ops : List (String × Op)) (v : List ℚ) :
    (loadOps ops v).1.map Prod.fst = ops.map Prod.fst := by
  induction ops generalizing v with
  | nil => rfl
  | cons hd tl ih =>
    obtain ⟨l, op⟩ := hd
    simp [loadOps, ih]

theorem to_vector_length (gs : GateSetM) :
    (to_vector gs).length = num_params gs := by
  simp only [to_vector, allOps, num_params, List.flatMap_append,
    List.length_append, List.length_flatMap]
  have h : ∀ ops : List (String × Op),
      (List.map (List.length ∘ fun p : String × Op => p.2.toVector) ops).sum
        = (List.map (fun p : String × Op => p.2.numParams) ops).sum := by
    intro ops
    congr 1
    exact List.map_congr_left fun p _ => by
      simp [Function.comp, Op.toVector_length]
  rw [h, h, h]

theorem offsetsFrom_get (ops : List (String × Op)) (off : ℕ) (k : ℕ)
    (h : k < (offsetsFrom ops off).length) :
    (offsetsFrom ops off).get ⟨k, h⟩ =
      ((ops.map Prod.fst).getD k "",
        off + ((ops.take k).map (fun p => p.2.numParams)).sum,
        off + ((ops.take (k + 1)).map (fun p => p.2.numParams)).sum) := by
  induction ops generalizing off k with
  | nil => simp [offsetsFrom] at h
  | cons hd tl ih =>
    obtain ⟨l, op⟩ := hd
    cases k with
    | zero => simp [offsetsFrom]
    | succ k =>
      have h' : k < (offsetsFrom tl (off + op.numParams)).length := by
        simpa [offsetsFrom] using h
      simp only [offsetsFrom, List.get_cons_succ]
      rw [ih (off + op.numParams) k h']
      simp [Nat.add_assoc]

theorem offsetsFrom_length (ops : List (String × Op)) (off : ℕ) :
    (offsetsFrom ops off).length = ops.length := by
  induction ops generalizing off with
  | nil => rfl
  | cons hd tl ih => obtain ⟨l, op⟩ := hd; simp [offsetsFrom, ih]

theorem offsetsFrom_labels (ops : List (String × Op)) (off : ℕ) :
    (offsetsFrom ops off).map Prod.fst = ops.map Prod.fst := by
  induction ops generalizing off with
  | nil => rfl
  | cons hd tl ih => obtain ⟨l, op⟩ := hd; simp [offsetsFrom, ih]

end GateSetM

open GateSetM in
/-- C2.  For every GateSet, `to_vector()` returns a vector of length
`num_params()`; `from_vector(v)` fails exactly when
`len(v) ≠ num_params()`; and `from_vector(to_vector())` succeeds, leaving
the raw matrix/vector of every prep, effect and gate unchanged (exactly,
in this exact-arithmetic model), label for label. -/
theorem toVector_fromVector_roundtrip (gs : GateSetM) :
    (to_vector gs).length = num_params gs ∧
    (∀ v : List ℚ, (from_vector gs v).isSome ↔ v.length = num_params gs) ∧
    ∃ gs', from_vector gs (to_vector gs) = some gs' ∧
      gs'.preps.map (fun p => (p.1, p.2.raw)) = gs.preps.map (fun p => (p.1, p.2.raw)) ∧
      gs'.effects.map (fun p => (p.1, p.2.raw)) = gs.effects.map (fun p => (p.1, p.2.raw)) ∧
      gs'.gates.map (fun p => (p.1, p.2.raw)) = gs.gates.map (fun p => (p.1, p.2.raw)) := by
  refine ⟨to_vector_length gs, ?_, ?_⟩
  · intro v
    by_cases h : v.length = num_params gs <;> simp [from_vector, h]
  · have hv : to_vector gs
        = (gs.preps.flatMap fun p => p.2.toVector)
          ++ ((gs.effects.flatMap fun p => p.2.toVector)
              ++ ((gs.gates.flatMap fun p => p.2.toVector) ++ [])) := by
      simp [to_vector, allOps, List.flatMap_append]
    refine ⟨{ gs with basisName := "unknown", basisDim := none }, ?_, rfl, rfl, rfl⟩
    rw [from_vector, if_pos (to_vector_length gs), hv]
    simp only [loadOps_append]

open GateSetM in
/-- C8.  For every GateSet, `num_params()` is the sum of the operators'
`num_params()` in the fixed order preps → effects → gates (insertion
order within each), and `get_vector_offsets()` returns one entry per
label, in that same order, whose value at position `k` is the half-open
range `[S k, S (k+1))` where `S k` sums the first `k` operators'
parameter counts.  In particular consecutive ranges are contiguous,
the first starts at `0`, the last ends at `num_params()`, so the ranges
partition `[0, num_params())`. -/
theorem num_params_and_offsets (gs : GateSetM) :
    num_params gs = ((allOps gs).map (fun p => p.2.numParams)).sum ∧
    (get_vector_offsets gs).length = (allOps gs).length ∧
    (get_vector_offsets gs).map Prod.fst = (allOps gs).map Prod.fst ∧
    (∀ k (h : k < (get_vector_offsets gs).length),
      ((get_vector_offsets gs).get ⟨k, h⟩).2 =
        ((((allOps gs).take k).map (fun p => p.2.numParams)).sum,
         (((allOps gs).take (k + 1)).map (fun p => p.2.numParams)).sum)) ∧
    (((allOps gs).take (allOps gs).length).map (fun p => p.2.numParams)).sum
      = num_params gs := by
  refine ⟨?_, offsetsFrom_length _ 0, offsetsFrom_labels _ 0, ?_, ?_⟩
  · simp only [num_params, allOps, List.map_append, List.sum_append]
  · intro k h
    simp only [get_vector_offsets] at h ⊢
    rw [offsetsFrom_get (allOps gs) 0 k h]
    simp
  · rw [List.take_length]
    simp only [num_params, allOps, List.map_append, List.sum_append]

open GateSetM in
/-- C9.  Assigning an identity vector to a GateSet whose dimension is
unset establishes the dimension as the vector's length (and stores the
vector as a static SPAM vector); once the dimension is set, assigning a
vector of any other length fails and leaves the whole GateSet — in
particular its stored identity vector and its dimension — unchanged. -/
theorem povm_identity_setter_dim (gs : GateSetM) :
    (∀ v : List ℚ, gs.dim = none →
      (povmIdentitySet gs v).2 = true ∧
      (povmIdentitySet gs v).1.dim = some v.length ∧
      (povmIdentitySet gs v).1.povmIdentity = some (Op.static v)) ∧
    (∀ (v : List ℚ) (d : ℕ), gs.dim = some d → v.length ≠ d →
      (povmIdentitySet gs v).2 = false ∧ (povmIdentitySet gs v).1 = gs) := by
  constructor
  · intro v h
    simp [povmIdentitySet, h]
  · intro v d h hne
    simp [povmIdentitySet, h, Option.some_inj, Ne.symm hne]

open GateSetM in
/-- C10.  Whenever `from_vector` succeeds, the basis metadata is reset —
`get_basis_name()` returns `"unknown"` and `get_basis_dimension()`
returns `None` — regardless of the basis set before the call, while the
prep/effect/gate labels, the SPAM-label definitions and the GateSet
dimension are unchanged. -/
theorem from_vector_resets_basis (gs : GateSetM) (v : List ℚ) (gs' : GateSetM)
    (h : from_vector gs v = some gs') :
    get_basis_name gs' = "unknown" ∧ get_basis_dimension gs' = none ∧
    gs'.preps.map Prod.fst = gs.preps.map Prod.fst ∧
    gs'.effects.map Prod.fst = gs.effects.map Prod.fst ∧
    gs'.gates.map Prod.fst = gs.gates.map Prod.fst ∧
    gs'.spamdefs = gs.spamdefs ∧ gs'.dim = gs.dim := by
  rw [from_vector] at h
  by_cases hl : v.length = num_params gs
  · rw [if_pos hl, Option.some_inj] at h
    subst h
    refine ⟨rfl, rfl, ?_, ?_, ?_, rfl, rfl⟩ <;>
      simp [loadOps_labels]
  · rw [if_neg hl] at h; exact absurd h (by simp)

/-- A concrete GateSet used by the witnesses: basis `("pp", 2)`, one TP
prep, one full effect, one TP gate of dimension 2, identity unset. -/
def gsW : GateSetM :=
  { preps := [("rho0", Op.tpVec 1 [2])]
    effects := [("E0", Op.full [3, 4])]
    gates := [("Gx", Op.tpGate 2 [5, 6])]
    povmIdentity := none
    spamdefs := [("plus", "rho0", "E0")]
    dim := none
    basisName := "pp"
    basisDim := some (Sum.inl 2) }

/-- Witness for C10: on `gsW`, `from_vector` at its own `to_vector`
succeeds, and the result has basis `("unknown", None)` with labels,
spamdefs and dimension untouched. -/
theorem from_vector_resets_basis_witness :
    GateSetM.get_basis_name
        { gsW with basisName := "unknown", basisDim := none } = "unknown" ∧
      ({ gsW with basisName := "unknown", basisDim := none } : GateSetM).spamdefs
        = gsW.spamdefs :=
  have h : GateSetM.from_vector gsW (GateSetM.to_vector gsW)
      = some { gsW with basisName := "unknown", basisDim := none } := by decide
  ⟨(from_vector_resets_basis gsW (GateSetM.to_vector gsW) _ h).1,
   (from_vector_resets_basis gsW (GateSetM.to_vector gsW) _ h).2.2.2.2.2.1⟩

/-! ## Basis construction and transformation (`BasisTools.py`)

numpy matrices are embedded as functions `ℕ → ℕ → ℂ` that are zero
outside the matrix's extent; matrix product and trace take the extent as
an explicit argument.  This matches numpy's dynamically-shaped arrays
and lets block matrices be embedded at offsets literally. -/

/-- A complex matrix of unspecified extent: entry function, zero outside
the constructed region. -/
def CMat : Type := ℕ → ℕ → ℂ

/-- The zero matrix. -/
noncomputable def zeroM : CMat := fun _ _ => 0

/-- `_mut(i,j,N)` (BasisTools.py:86-88): the matrix unit with a single 1
at `(i,j)`.  (`N` only fixes the numpy extent; the entries carry it.) -/
noncomputable def mutMat (i j : ℕ) : CMat := fun a b => if a = i ∧ b = j then 1 else 0

/-- The `d × d` identity matrix (`np.identity(d)`). -/
noncomputable def idMat (d : ℕ) : CMat := fun a b => if a = b ∧ a < d then 1 else 0

/-- Scale a matrix by a real number (`mx *= c`). -/
noncomputable def cmulR (c : ℝ) (M : CMat) : CMat := fun i j => (c : ℂ) * M i j

/-- Place a block at diagonal offset `s`
(`mx[s:s+b, s:s+b] = blockMx`, the block being zero outside its extent). -/
noncomputable def embedAt (s : ℕ) (M : CMat) : CMat := fun i j =>
  if s ≤ i ∧ s ≤ j then M (i - s) (j - s) else 0

/-- `np.dot` for `n × n` extents. -/
noncomputable def matMulN (n : ℕ) (A B : CMat) : CMat := fun i j =>
  ∑ k ∈ Finset.range n, A i k * B k j

/-- Trace over an `n × n` extent. -/
noncomputable def traceN (n : ℕ) (A : CMat) : ℂ := ∑ i ∈ Finset.range n, A i i

/-- `A` fits in an `n × n` array: zero outside `[0,n) × [0,n)`. -/
def supportIn (n : ℕ) (A : CMat) : Prop :=
  ∀ i j, n ≤ i ∨ n ≤ j → A i j = 0

/-- A density-matrix-space structure (`dimOrBlockDims`): a single integer
dimension or a list of block dimensions. -/
inductive DimSpec where
  | single (d : ℕ)
  | blocks (l : List ℕ)
deriving DecidableEq

/-- `_processBlockDims` (BasisTools.py:97-147): the embedding
density-matrix dimension, `sum(blockDims)`. -/
def dmDim : DimSpec → ℕ
  | .single d => d
  | .blocks l => l.sum

/-- `_processBlockDims`: the gate-space dimension,
`sum(blockDim ** 2)`. -/
def gateDim : DimSpec → ℕ
  | .single d => d ^ 2
  | .blocks l => (l.map (fun b => b ^ 2)).sum

/-! ### Gell-Mann matrices (BasisTools.py:311-424) -/

/-- The last matrix `_GetGellMannNonIdentityDiagMxs` appends for a given
`d ≥ 2`: `sqrt(2/(d(d-1))) * diag(1, …, 1, 1-d)`. -/
noncomputable def gmLastDiag (d : ℕ) : CMat := fun i j =>
  if i = j ∧ i < d then
    (Real.sqrt (2 / (d * (d - 1) : ℕ)) : ℂ) * (if i = d - 1 then 1 - (d : ℂ) else 1)
  else 0

/-- `_GetGellMannNonIdentityDiagMxs(d)` (BasisTools.py:311-326): the
traceless diagonal generalized Gell-Mann matrices, built by recursion on
`d-1` (the recursive matrices sit in the top-left corner, the rest of the
`d × d` array being zero — which the extent-free embedding renders
literally). -/
noncomputable def gmDiagMxs : ℕ → List CMat
  | 0 => []
  | 1 => []
  | d + 2 => gmDiagMxs (d + 1) ++ [gmLastDiag (d + 2)]

/-- The real symmetric off-diagonal Gell-Mann matrix
(`mx[k,j] = mx[j,k] = 1.0`). -/
noncomputable def gmSym (k j : ℕ) : CMat := fun a b =>
  if (a = k ∧ b = j) ∨ (a = j ∧ b = k) then 1 else 0

/-- The imaginary antisymmetric off-diagonal Gell-Mann matrix
(`mx[k,j] = -1.0j; mx[j,k] = 1.0j`). -/
noncomputable def gmAntisym (k j : ℕ) : CMat := fun a b =>
  if a = k ∧ b = j then -Complex.I else if a = j ∧ b = k then Complex.I else 0

/-- `GetGellMannMatrices(d)` for an integer `d` (BasisTools.py:353-376):
identity, then all symmetric off-diagonal (`k < j` in lexicographic
order), then all antisymmetric off-diagonal, then the non-identity
diagonal matrices. -/
noncomputable def gmMxsInt (d : ℕ) : List CMat :=
  [idMat d]
    ++ ((List.range d).flatMap fun k =>
          (List.range' (k + 1) (d - (k + 1))).map fun j => gmSym k j)
    ++ ((List.range d).flatMap fun k =>
          (List.range' (k + 1) (d - (k + 1))).map fun j => gmAntisym k j)
    ++ gmDiagMxs d

/-- `GetGellMannMatrices` on a block list (BasisTools.py:378-389): the
per-block matrices embedded block-diagonally at increasing offsets. -/
noncomputable def gmBlocks : ℕ → List ℕ → List CMat
  | _, [] => []
  | start, b :: rest => (gmMxsInt b).map (embedAt start) ++ gmBlocks (start + b) rest

/-- `GetGellMannMatrices(dimOrBlockDims)` (BasisTools.py:328-392). -/
noncomputable def GetGellMannMatrices : DimSpec → List CMat
  | .single d => gmMxsInt d
  | .blocks l => gmBlocks 0 l

/-- `GetNormalizedGellMannMatrices(dimOrBlockDims)`
(BasisTools.py:395-424): `mxs[0] *= 1/sqrt(mxs[0].shape[0])` — the
arrays' extent `mxs[0].shape[0]` is `dmDim` for both input kinds — and
every later matrix is multiplied by `1/sqrt(2)`. -/
noncomputable def GetNormalizedGellMannMatrices (s : DimSpec) : List CMat :=
  match GetGellMannMatrices s with
  | [] => []
  | m :: rest => cmulR (1 / Real.sqrt (dmDim s)) m :: rest.map (cmulR (1 / Real.sqrt 2))

/-! ### Pauli-product matrices (BasisTools.py:565-620) -/

/-- `sigmaVec = (id2x2/sqrt2, sigmax/sqrt2, sigmay/sqrt2, sigmaz/sqrt2)`
(BasisTools.py:596), index 0..3; other indices never occur. -/
noncomputable def sigmaVecN : ℕ → CMat
  | 0 => cmulR (1 / Real.sqrt 2) (idMat 2)
  | 1 => cmulR (1 / Real.sqrt 2) (gmSym 0 1)
  | 2 => cmulR (1 / Real.sqrt 2) (gmAntisym 0 1)
  | 3 => cmulR (1 / Real.sqrt 2) (fun a b =>
      if a = 0 ∧ b = 0 then 1 else if a = 1 ∧ b = 1 then -1 else 0)
  | _ + 4 => zeroM

/-- One step `M = np.kron(M, sigmaVec[i])` of the Pauli-product build:
the Kronecker product with a `2 × 2` factor. -/
noncomputable def kronStep (M : CMat) (s : ℕ) : CMat := fun i j =>
  M (i / 2) (j / 2) * sigmaVecN s (i % 2) (j % 2)

/-- `itertools.product([0,1,2,3], repeat=n)` in lexicographic order, the
first factor most significant. -/
def sigmaTuples : ℕ → List (List ℕ)
  | 0 => [[]]
  | n + 1 => (List.range 4).flatMap fun a => (sigmaTuples n).map fun t => a :: t

/-- The Pauli tensor-product matrix for one index tuple
(BasisTools.py:615-618). -/
noncomputable def ppBuild (inds : List ℕ) : CMat :=
  inds.foldl kronStep (idMat 1)

/-- `GetPauliProdMatrices(dim)` (BasisTools.py:565-620): `none` encodes
the `ValueError` raised when `dim` is not an exact power of two (the
float test `isInteger(log2(dim))`, exact here); `dim = 1` yields the
single `1 × 1` identity; otherwise all `dim²` Kronecker products of the
normalized Pauli matrices. -/
noncomputable def GetPauliProdMatrices (dim : ℕ) : Option (List CMat) :=
  let k := Nat.log2 dim
  if 2 ^ k = dim then
    if k = 0 then some [idMat 1]
    else some ((sigmaTuples k).map ppBuild)
  else none

/-! ### Direct-sum expand/contract (BasisTools.py:214-307) -/

/-- One block's contribution to the index map of
`expandFromStdDirectSumMx`/`contractToStdDirectSumMx`: for the block at
diagonal offset `start`, the flattened position `dmDim*i + j` of each of
its entries `(i,j)`, row-major. -/
def blockIdx (dmD start b : ℕ) : List ℕ :=
  (List.range b).flatMap fun i =>
    (List.range b).map fun j => dmD * (start + i) + (start + j)

/-- The index map `indxMap` built by both `expandFromStdDirectSumMx` and
`contractToStdDirectSumMx` (BasisTools.py:247-252, 296-301): the blocks'
flattened positions, blocks in order. -/
def indxList (dmD : ℕ) : ℕ → List ℕ → List ℕ
  | _, [] => []
  | start, b :: rest => blockIdx dmD start b ++ indxList dmD (start + b) rest

/-- `expandFromStdDirectSumMx(mxInStdBasis, dimOrBlockDims)`
(BasisTools.py:214-258): identity for `None` and for a single integer
(the latter just asserts the shape); for a block list, scatter the
`gateDim × gateDim` input into a `dmDim² × dmDim²` zero matrix along the
index map. -/
noncomputable def expandFromStdDirectSumMx (M : CMat) : Option DimSpec → CMat
  | none => M
  | some (.single _) => M
  | some (.blocks l) =>
    let L := indxList l.sum 0 l
    fun fi fj => if fi ∈ L ∧ fj ∈ L then M (L.indexOf fi) (L.indexOf fj) else 0

/-- `contractToStdDirectSumMx(mxInStdBasis, dimOrBlockDims)`
(BasisTools.py:261-307): identity for `None`/integer; for a block list,
gather along the index map into a `gateDim × gateDim` array (entries
beyond that extent are not part of the numpy array; here they are 0). -/
noncomputable def contractToStdDirectSumMx (M : CMat) : Option DimSpec → CMat
  | none => M
  | some (.single _) => M
  | some (.blocks l) =>
    let L := indxList l.sum 0 l
    fun i j => if i < L.length ∧ j < L.length then M (L.getD i 0) (L.getD j 0) else 0

/-! ### Support and size lemmas for the Pauli-product basis -/

theorem sigmaVecN_support (s : ℕ) : supportIn 2 (sigmaVecN s) := by
  intro i j hij
  have h1 : ¬(i = j ∧ i < 2) := by omega
  have h2 : ¬(i = 0 ∧ j = 1) := by omega
  have h3 : ¬(i = 1 ∧ j = 0) := by omega
  have h4 : ¬(i = 0 ∧ j = 0) := by omega
  have h5 : ¬(i = 1 ∧ j = 1) := by omega
  rcases s with _ | _ | _ | _ | s <;>
    simp [sigmaVecN, cmulR, idMat, gmSym, gmAntisym, zeroM, h1, h2, h3, h4, h5]

theorem idMat_support (d : ℕ) : supportIn d (idMat d) := by
  intro i j hij
  simp only [idMat]
  rw [if_neg (by omega)]

theorem kronStep_support {m : ℕ} {M : CMat} (hM : supportIn m M) (s : ℕ) :
    supportIn (2 * m) (kronStep M s) := by
  intro i j hij
  simp only [kronStep]
  rcases hij with h | h
  · rw [hM (i / 2) (j / 2) (Or.inl (by omega)), zero_mul]
  · rw [hM (i / 2) (j / 2) (Or.inr (by omega)), zero_mul]

theorem foldl_kronStep_support (inds : List ℕ) :
    ∀ (m : ℕ) (M : CMat), supportIn m M →
      supportIn (m * 2 ^ inds.length) (inds.foldl kronStep M) := by
  induction inds with
  | nil => intro m M hM; simpa using hM
  | cons a t ih =>
    intro m M hM
    have h := ih (2 * m) (kronStep M a) (kronStep_support hM a)
    have he : 2 * m * 2 ^ t.length = m * 2 ^ (a :: t).length := by
      simp [List.length_cons, pow_succ]; ring
    rw [he] at h
    exact h

theorem ppBuild_support {inds : List ℕ} {n : ℕ} (h : inds.length = n) :
    supportIn (2 ^ n) (ppBuild inds) := by
  have := foldl_kronStep_support inds 1 (idMat 1) (idMat_support 1)
  rw [h, one_mul] at this
  exact this

theorem sigmaTuples_length (n : ℕ) : (sigmaTuples n).length = 4 ^ n := by
  induction n with
  | zero => rfl
  | succ n ih =>
    simp only [sigmaTuples, List.length_flatMap]
    simp only [Function.comp_def, List.length_map, ih]
    simp [pow_succ]
    ring

theorem sigmaTuples_mem_length (n : ℕ) :
    ∀ t ∈ sigmaTuples n, t.length = n := by
  induction n with
  | zero => intro t ht; simp only [sigmaTuples, List.mem_singleton] at ht; simp [ht]
  | succ n ih =>
    intro t ht
    simp only [sigmaTuples, List.mem_flatMap, List.mem_map, List.mem_range] at ht
    obtain ⟨a, _, t', ht', rfl⟩ := ht
    simp [ih t' ht']

theorem pauliProd_two_pow (k : ℕ) (hk : k ≠ 0) :
    GetPauliProdMatrices (2 ^ k) = some ((sigmaTuples k).map ppBuild) ∧
    ((sigmaTuples k).map ppBuild).length = (2 ^ k) ^ 2 ∧
    ∀ M ∈ (sigmaTuples k).map ppBuild, supportIn (2 ^ k) M := by
  refine ⟨?_, ?_, ?_⟩
  · simp [GetPauliProdMatrices, Nat.log2_two_pow, hk]
  · rw [List.length_map, sigmaTuples_length]
    rw [show (4 : ℕ) = 2 ^ 2 by norm_num, ← pow_mul, ← pow_mul, Nat.mul_comm]
  · intro M hM
    obtain ⟨t, ht, rfl⟩ := List.mem_map.1 hM
    exact ppBuild_support (sigmaTuples_mem_length k t ht)

/-- C5.  `GetPauliProdMatrices(dim)` fails (raises, here `none`) exactly
when `dim` is not an exact power of two — in particular for `dim = 3`;
for `dim ∈ {1,2,4,8}` it succeeds with exactly `dim²` matrices, each
fitting a `dim × dim` array; and `dim = 1` yields the single `1 × 1`
identity. -/
theorem pauliProdMatrices_spec :
    (∀ dim : ℕ, (GetPauliProdMatrices dim).isSome ↔ ∃ k, dim = 2 ^ k) ∧
    GetPauliProdMatrices 3 = none ∧
    GetPauliProdMatrices 1 = some [idMat 1] ∧
    ∀ dim ∈ ([2, 4, 8] : List ℕ), ∃ l, GetPauliProdMatrices dim = some l ∧
      l.length = dim ^ 2 ∧ ∀ M ∈ l, supportIn dim M := by
  refine ⟨?_, ?_, ?_, ?_⟩
  · intro dim
    by_cases h : 2 ^ Nat.log2 dim = dim
    · simp only [GetPauliProdMatrices, if_pos h]
      constructor
      · intro _
        exact ⟨Nat.log2 dim, h.symm⟩
      · intro _
        split <;> rfl
    · simp only [GetPauliProdMatrices, if_neg h]
      simp only [Option.isSome_none, Bool.false_eq_true, false_iff]
      rintro ⟨k, rfl⟩
      exact h (by rw [Nat.log2_two_pow])
  · have h : ¬ (2 ^ Nat.log2 3 = 3) := by simp [Nat.log2]
    simp [GetPauliProdMatrices, h]
  · have h : Nat.log2 1 = 0 := by simp [Nat.log2]
    simp [GetPauliProdMatrices, h]
  · intro dim hdim
    have h124 : dim = 2 ^ 1 ∨ dim = 2 ^ 2 ∨ dim = 2 ^ 3 := by
      simp only [List.mem_cons, List.not_mem_nil, or_false] at hdim
      rcases hdim with rfl | rfl | rfl
      · exact Or.inl (by norm_num)
      · exact Or.inr (Or.inl (by norm_num))
      · exact Or.inr (Or.inr (by norm_num))
    rcases h124 with rfl | rfl | rfl
    · exact ⟨_, pauliProd_two_pow 1 (by norm_num)⟩
    · exact ⟨_, pauliProd_two_pow 2 (by norm_num)⟩
    · exact ⟨_, pauliProd_two_pow 3 (by norm_num)⟩

/-! ### Facts about the direct-sum index map -/

theorem blockIdx_mem {dmD start b x : ℕ} (hx : x ∈ blockIdx dmD start b) :
    ∃ i < b, ∃ j < b, x = dmD * (start + i) + (start + j) := by
  simp only [blockIdx, List.mem_flatMap, List.mem_map, List.mem_range] at hx
  obtain ⟨i, hi, j, hj, he⟩ := hx
  exact ⟨i, hi, j, hj, he.symm⟩

theorem blockIdx_lower {dmD start b x : ℕ} (hx : x ∈ blockIdx dmD start b) :
    dmD * start + start ≤ x := by
  obtain ⟨i, hi, j, hj, rfl⟩ := blockIdx_mem hx
  have h1 : dmD * start ≤ dmD * (start + i) := Nat.mul_le_mul_left _ (by omega)
  omega

theorem blockIdx_upper {dmD start b x : ℕ} (hb : start + b ≤ dmD)
    (hx : x ∈ blockIdx dmD start b) : x < dmD * (start + b) := by
  obtain ⟨i, hi, j, hj, rfl⟩ := blockIdx_mem hx
  have h2 : dmD * (start + i) + dmD = dmD * (start + i + 1) := by ring
  have h3 : dmD * (start + i + 1) ≤ dmD * (start + b) :=
    Nat.mul_le_mul_left _ (by omega)
  omega

theorem blockIdx_nodup {dmD start b : ℕ} (hb : start + b ≤ dmD) :
    (blockIdx dmD start b).Nodup := by
  rw [blockIdx, List.nodup_flatMap]
  constructor
  · intro i _
    refine List.Nodup.map ?_ (List.nodup_range b)
    intro a c h
    simp only at h
    omega
  · rw [List.pairwise_iff_getElem]
    intro i j hi hj hij
    simp only [List.getElem_range, Function.onFun]
    intro x hx1 hx2
    simp only [List.mem_map, List.mem_range] at hx1 hx2
    obtain ⟨u, hu, rfl⟩ := hx1
    obtain ⟨v, hv, hev⟩ := hx2
    rw [List.length_range] at hi hj
    have h2 : dmD * (start + i) + dmD = dmD * (start + i + 1) := by ring
    have h3 : dmD * (start + i + 1) ≤ dmD * (start + j) :=
      Nat.mul_le_mul_left _ (by omega)
    omega

theorem indxList_lower (dmD : ℕ) (l : List ℕ) :
    ∀ (start : ℕ), ∀ x ∈ indxList dmD start l, dmD * start + start ≤ x := by
  induction l with
  | nil => intro start x hx; simp [indxList] at hx
  | cons b rest ih =>
    intro start x hx
    rw [indxList, List.mem_append] at hx
    rcases hx with hx | hx
    · exact blockIdx_lower hx
    · have h1 := ih (start + b) x hx
      have h2 : dmD * start ≤ dmD * (start + b) := Nat.mul_le_mul_left _ (by omega)
      omega

theorem indxList_nodup (dmD : ℕ) (l : List ℕ) :
    ∀ (start : ℕ), start + l.sum ≤ dmD → (indxList dmD start l).Nodup := by
  induction l with
  | nil => intro start _; simp [indxList]
  | cons b rest ih =>
    intro start hs
    rw [List.sum_cons] at hs
    rw [indxList]
    refine List.Nodup.append (blockIdx_nodup (by omega)) (ih (start + b) (by omega)) ?_
    intro x hx1 hx2
    have h1 := blockIdx_upper (by omega) hx1
    have h2 := indxList_lower dmD rest (start + b) x hx2
    omega

theorem blockIdx_length (dmD start b : ℕ) : (blockIdx dmD start b).length = b ^ 2 := by
  simp [blockIdx, List.length_flatMap, Function.comp_def, List.map_const',
    List.sum_replicate, smul_eq_mul, sq]

theorem indxList_length (dmD : ℕ) (l : List ℕ) :
    ∀ start, (indxList dmD start l).length = (l.map fun b => b ^ 2).sum := by
  induction l with
  | nil => intro start; rfl
  | cons b rest ih =>
    intro start
    simp [indxList, blockIdx_length, ih]

open DimSpec in
/-- C7.  For every block-structure list `l`:
`contractToStdDirectSumMx(expandFromStdDirectSumMx(M, l), l)` agrees with
`M` on every entry of the `spaceDim × spaceDim` extent; the expanded
matrix is zero at every entry `(fi, fj)` outside the mapped
block-diagonal index set; and both operations return their input
unchanged when the structure argument is `None`. -/
theorem expand_contract_spec :
    (∀ (l : List ℕ) (M : CMat) (i j : ℕ),
        i < gateDim (blocks l) → j < gateDim (blocks l) →
        contractToStdDirectSumMx (expandFromStdDirectSumMx M (some (blocks l)))
          (some (blocks l)) i j = M i j) ∧
    (∀ (l : List ℕ) (M : CMat) (fi fj : ℕ),
        fi ∉ indxList l.sum 0 l ∨ fj ∉ indxList l.sum 0 l →
        expandFromStdDirectSumMx M (some (blocks l)) fi fj = 0) ∧
    (∀ M : CMat, expandFromStdDirectSumMx M none = M ∧
        contractToStdDirectSumMx M none = M) := by
  refine ⟨?_, ?_, fun M => ⟨rfl, rfl⟩⟩
  · intro l M i j hi hj
    have hlen : (indxList l.sum 0 l).length = gateDim (blocks l) := by
      rw [indxList_length, gateDim]
    have hnd : (indxList l.sum 0 l).Nodup := indxList_nodup l.sum l 0 (by omega)
    rw [contractToStdDirectSumMx, expandFromStdDirectSumMx]
    beta_reduce
    have hi' : i < (indxList l.sum 0 l).length := by omega
    have hj' : j < (indxList l.sum 0 l).length := by omega
    rw [if_pos ⟨hi', hj'⟩]
    rw [List.getD_eq_getElem _ _ hi', List.getD_eq_getElem _ _ hj']
    rw [if_pos ⟨List.getElem_mem hi', List.getElem_mem hj'⟩]
    rw [List.indexOf_getElem hnd i hi', List.indexOf_getElem hnd j hj']
  · intro l M fi fj h
    rw [expandFromStdDirectSumMx]
    beta_reduce
    rw [if_neg (by rintro ⟨h1, h2⟩; rcases h with h | h <;> exact h (by assumption))]

/-! ### The Gell-Mann normalization on block structures -/

theorem gmMxsInt_one : gmMxsInt 1 = [idMat 1] := by
  rfl

theorem getGellMann_one_one :
    GetGellMannMatrices (DimSpec.blocks [1, 1]) =
      [embedAt 0 (idMat 1), embedAt 1 (idMat 1)] := by
  rfl

theorem normalizedGM_one_one :
    GetNormalizedGellMannMatrices (DimSpec.blocks [1, 1]) =
      [cmulR (1 / Real.sqrt 2) (embedAt 0 (idMat 1)),
       cmulR (1 / Real.sqrt 2) (embedAt 1 (idMat 1))] := by
  rw [GetNormalizedGellMannMatrices, getGellMann_one_one]
  have h : (dmDim (DimSpec.blocks [1, 1]) : ℝ) = 2 := by
    simp [dmDim]
  simp [h]

/-- C3 (evidence of the code bug).  The docstring of
`GetNormalizedGellMannMatrices` promises `Tr(dot(Mi,Mj)) == delta_ij` for
every `dimOrBlockDims`, int or list; the spec repeats it.  But the
normalization divides `mxs[0]` — the first block's identity — by
`sqrt(dmDim)` of the whole embedding space, and every later matrix
(including the other blocks' identities) by `sqrt(2)`.  For the block
structure `[1,1]` both returned matrices have trace inner product `1/2`
with themselves, not `1`.  (`GetGellMannToStdBasisTransformMatrix`
normalizes per block instead, confirming the intent.) -/
theorem normalizedGellMann_block_normalization_bug :
    traceN 2 (matMulN 2
        ((GetNormalizedGellMannMatrices (DimSpec.blocks [1, 1])).getD 0 zeroM)
        ((GetNormalizedGellMannMatrices (DimSpec.blocks [1, 1])).getD 0 zeroM)) = 1 / 2 ∧
    traceN 2 (matMulN 2
        ((GetNormalizedGellMannMatrices (DimSpec.blocks [1, 1])).getD 1 zeroM)
        ((GetNormalizedGellMannMatrices (DimSpec.blocks [1, 1])).getD 1 zeroM)) = 1 / 2 := by
  rw [normalizedGM_one_one]
  have hs : (Real.sqrt 2 : ℂ) * (Real.sqrt 2 : ℂ) = 2 := by
    rw [← Complex.ofReal_mul, Real.mul_self_sqrt (by norm_num : (0:ℝ) ≤ 2)]
    norm_num
  have hne : (Real.sqrt 2 : ℂ) ≠ 0 := by
    intro h
    rw [Complex.ofReal_eq_zero] at h
    exact absurd h (Real.sqrt_ne_zero'.2 (by norm_num))
  constructor
  · show traceN 2 (matMulN 2 (cmulR (1 / Real.sqrt 2) (embedAt 0 (idMat 1)))
        (cmulR (1 / Real.sqrt 2) (embedAt 0 (idMat 1)))) = 1 / 2
    simp only [traceN, matMulN, cmulR, embedAt, idMat, Finset.sum_range_succ,
      Finset.sum_range_zero]
    norm_num
    field_simp
    rw [hs]
  · show traceN 2 (matMulN 2 (cmulR (1 / Real.sqrt 2) (embedAt 1 (idMat 1)))
        (cmulR (1 / Real.sqrt 2) (embedAt 1 (idMat 1)))) = 1 / 2
    simp only [traceN, matMulN, cmulR, embedAt, idMat, Finset.sum_range_succ,
      Finset.sum_range_zero]
    norm_num
    field_simp
    rw [hs]

/-! ### Basis-change transform matrices and conversions
(BasisTools.py:426-563, 623-787)

Here matrices carry their size in the type (`Matrix (Fin n) (Fin n) ℂ`,
`n = gateDim s`), since `np.linalg.inv` needs square shape; `⁻¹` is
Mathlib's matrix inverse, which agrees with `np.linalg.inv` on invertible
input. -/

/-- `_processBlockDims`: the list of block dimensions (`[d]` for a
single integer). -/
def blockDims : DimSpec → List ℕ
  | .single d => [d]
  | .blocks l => l

/-- The column-filling loop shared by
`GetGellMannToStdBasisTransformMatrix` and
`GetPauliProdToStdBasisTransformMatrix`: per block of dimension `b` at
offset `start`, column `start + j` holds the flattened (row-major)
`j`-th basis matrix of the block,
`toStd[start + r, start + j] = mxs[j].flatten()[r] = mxs[j][r / b][r % b]`. -/
noncomputable def basisToStdAux (mxsOf : ℕ → List CMat) : ℕ → List ℕ → CMat
  | _, [] => zeroM
  | start, b :: rest => fun i j =>
    (if start ≤ i ∧ i < start + b ^ 2 ∧ start ≤ j ∧ j < start + b ^ 2 then
       ((mxsOf b).getD (j - start) zeroM) ((i - start) / b) ((i - start) % b)
     else 0) + basisToStdAux mxsOf (start + b ^ 2) rest i j

/-- `GetGellMannToStdBasisTransformMatrix(dimOrBlockDims)`
(BasisTools.py:426-470): block-diagonal, each block's columns the
flattened normalized Gell-Mann matrices of that block dimension.  `n` is
the numpy array's extent `gateDim s` (`np.zeros((gateDim, gateDim))`);
the claims instantiate it so. -/
noncomputable def gmToStdMat (n : ℕ) (s : DimSpec) :
    Matrix (Fin n) (Fin n) ℂ :=
  Matrix.of fun i j =>
    basisToStdAux (fun b => GetNormalizedGellMannMatrices (.single b))
      0 (blockDims s) i j

/-- `GetPauliProdToStdBasisTransformMatrix(dimOrBlockDims)`
(BasisTools.py:623-668).  The `getD []` absorbs the `ValueError`
`GetPauliProdMatrices` raises for a non-power-of-two block, so this
matrix is the code's exactly when every block dimension is a power of
two (the only case in which the Pauli-product basis is defined). -/
noncomputable def ppToStdMat (n : ℕ) (s : DimSpec) :
    Matrix (Fin n) (Fin n) ℂ :=
  Matrix.of fun i j =>
    basisToStdAux (fun b => (GetPauliProdMatrices b).getD []) 0 (blockDims s) i j

/-- `np.linalg.norm` of the imaginary part of a complex matrix
(Frobenius norm). -/
noncomputable def imNorm {n : ℕ} (A : Matrix (Fin n) (Fin n) ℂ) : ℝ :=
  Real.sqrt (∑ i, ∑ j, (A i j).im ^ 2)

/-- `basisChg_StdToGellMann` (BasisTools.py:472-523), matrix branch:
`gm = stdToGM · M · gmToStd`; raises (`error`) when the norm of the
imaginary part exceeds `1e-8`, else returns `real(gm)`. -/
noncomputable def basisChg_StdToGellMann (n : ℕ) (s : DimSpec)
    (M : Matrix (Fin n) (Fin n) ℂ) :
    Except String (Matrix (Fin n) (Fin n) ℝ) :=
  let gmToStd := gmToStdMat n s
  let stdToGM := gmToStd⁻¹
  let gm := stdToGM * M * gmToStd
  if 1 / 10 ^ 8 < imNorm gm then
    Except.error "Gell-Mann matrix has non-zero imaginary part"
  else Except.ok (gm.map Complex.re)

/-- `basisChg_GellMannToStd` (BasisTools.py:526-562), matrix branch:
`gmToStd · M · stdToGM`, no imaginary-part check. -/
noncomputable def basisChg_GellMannToStd (n : ℕ) (s : DimSpec)
    (M : Matrix (Fin n) (Fin n) ℂ) :
    Matrix (Fin n) (Fin n) ℂ :=
  gmToStdMat n s * M * (gmToStdMat n s)⁻¹

/-- `basisChg_StdToPauliProd` (BasisTools.py:671-724), matrix branch. -/
noncomputable def basisChg_StdToPauliProd (n : ℕ) (s : DimSpec)
    (M : Matrix (Fin n) (Fin n) ℂ) :
    Except String (Matrix (Fin n) (Fin n) ℝ) :=
  let ppToStd := ppToStdMat n s
  let stdToPP := ppToStd⁻¹
  let pp := stdToPP * M * ppToStd
  if 1 / 10 ^ 8 < imNorm pp then
    Except.error "Pauil-product matrix has non-zero imaginary part"
  else Except.ok (pp.map Complex.re)

/-- `basisChg_PauliProdToStd` (BasisTools.py:727-763), matrix branch. -/
noncomputable def basisChg_PauliProdToStd (n : ℕ) (s : DimSpec)
    (M : Matrix (Fin n) (Fin n) ℂ) :
    Matrix (Fin n) (Fin n) ℂ :=
  ppToStdMat n s * M * (ppToStdMat n s)⁻¹

theorem imNorm_zero_of_real {n : ℕ} {A : Matrix (Fin n) (Fin n) ℂ}
    (h : ∀ i j, (A i j).im = 0) : imNorm A = 0 := by
  have hz : (∑ i, ∑ j, (A i j).im ^ 2) = 0 := by
    refine Finset.sum_eq_zero fun i _ => Finset.sum_eq_zero fun j _ => ?_
    rw [h i j]; ring
  rw [imNorm, hz, Real.sqrt_zero]

theorem map_re_ofReal_of_real {n : ℕ} {A : Matrix (Fin n) (Fin n) ℂ}
    (h : ∀ i j, (A i j).im = 0) :
    (A.map Complex.re).map (fun x : ℝ => (x : ℂ)) = A := by
  ext i j
  simp only [Matrix.map_apply]
  exact Complex.ext rfl (h i j).symm

theorem conj_roundtrip {n : ℕ} (T M : Matrix (Fin n) (Fin n) ℂ)
    (hT : IsUnit T.det) : T * (T⁻¹ * M * T) * T⁻¹ = M := by
  rw [← Matrix.mul_assoc, ← Matrix.mul_assoc, Matrix.mul_nonsing_inv _ hT,
    Matrix.one_mul, Matrix.mul_assoc, Matrix.mul_nonsing_inv _ hT, Matrix.mul_one]

theorem basisChg_gm_unfold (n : ℕ) (s : DimSpec)
    (M : Matrix (Fin n) (Fin n) ℂ) :
    basisChg_StdToGellMann n s M =
      if 1 / 10 ^ 8 < imNorm ((gmToStdMat n s)⁻¹ * M * gmToStdMat n s) then
        Except.error "Gell-Mann matrix has non-zero imaginary part"
      else Except.ok (((gmToStdMat n s)⁻¹ * M * gmToStdMat n s).map Complex.re) := rfl

theorem basisChg_pp_unfold (n : ℕ) (s : DimSpec)
    (M : Matrix (Fin n) (Fin n) ℂ) :
    basisChg_StdToPauliProd n s M =
      if 1 / 10 ^ 8 < imNorm ((ppToStdMat n s)⁻¹ * M * ppToStdMat n s) then
        Except.error "Pauil-product matrix has non-zero imaginary part"
      else Except.ok (((ppToStdMat n s)⁻¹ * M * ppToStdMat n s).map Complex.re) := rfl

/-- C6 (amended).  Conversion from the Standard basis into the Gell-Mann
or Pauli-product basis fails exactly when the (Frobenius) norm of the
imaginary part of the converted matrix exceeds `1e-8`; on success the
returned matrix is the real part of the converted matrix, the
(≤ `1e-8`) imaginary part being discarded.  (The original claim's second
half — that every Hermitian input succeeds — is false for the matrix
branch: see the counterexample.  For the Pauli-product transform the
model is the code's whenever every block dimension is a power of two,
the only case where that basis is defined.) -/
theorem basisChg_imag_check_spec (s : DimSpec)
    (M : Matrix (Fin (gateDim s)) (Fin (gateDim s)) ℂ) :
    ((∃ e, basisChg_StdToGellMann (gateDim s) s M = Except.error e) ↔
      1 / 10 ^ 8 < imNorm ((gmToStdMat (gateDim s) s)⁻¹ * M * gmToStdMat (gateDim s) s)) ∧
    (∀ R, basisChg_StdToGellMann (gateDim s) s M = Except.ok R →
      R = ((gmToStdMat (gateDim s) s)⁻¹ * M * gmToStdMat (gateDim s) s).map Complex.re) ∧
    ((∃ e, basisChg_StdToPauliProd (gateDim s) s M = Except.error e) ↔
      1 / 10 ^ 8 < imNorm ((ppToStdMat (gateDim s) s)⁻¹ * M * ppToStdMat (gateDim s) s)) ∧
    (∀ R, basisChg_StdToPauliProd (gateDim s) s M = Except.ok R →
      R = ((ppToStdMat (gateDim s) s)⁻¹ * M * ppToStdMat (gateDim s) s).map Complex.re) := by
  refine ⟨?_, ?_, ?_, ?_⟩
  · rw [basisChg_gm_unfold]
    by_cases h : 1 / 10 ^ 8
        < imNorm ((gmToStdMat (gateDim s) s)⁻¹ * M * gmToStdMat (gateDim s) s)
    · rw [if_pos h]
      exact ⟨fun _ => h, fun _ => ⟨_, rfl⟩⟩
    · rw [if_neg h]
      exact ⟨fun ⟨e, he⟩ => by simp at he, fun hc => absurd hc h⟩
  · intro R hR
    rw [basisChg_gm_unfold] at hR
    by_cases h : 1 / 10 ^ 8
        < imNorm ((gmToStdMat (gateDim s) s)⁻¹ * M * gmToStdMat (gateDim s) s)
    · rw [if_pos h] at hR; simp at hR
    · rw [if_neg h] at hR
      simp only [Except.ok.injEq] at hR
      exact hR.symm
  · rw [basisChg_pp_unfold]
    by_cases h : 1 / 10 ^ 8
        < imNorm ((ppToStdMat (gateDim s) s)⁻¹ * M * ppToStdMat (gateDim s) s)
    · rw [if_pos h]
      exact ⟨fun _ => h, fun _ => ⟨_, rfl⟩⟩
    · rw [if_neg h]
      exact ⟨fun ⟨e, he⟩ => by simp at he, fun hc => absurd hc h⟩
  · intro R hR
    rw [basisChg_pp_unfold] at hR
    by_cases h : 1 / 10 ^ 8
        < imNorm ((ppToStdMat (gateDim s) s)⁻¹ * M * ppToStdMat (gateDim s) s)
    · rw [if_pos h] at hR; simp at hR
    · rw [if_neg h] at hR
      simp only [Except.ok.injEq] at hR
      exact hR.symm

/-- C4 (amended).  For every density-space structure `s` and every
matrix `M` of the matching space dimension: provided the transform
matrix is invertible (the spec takes it as "always square and
non-singular by construction") and the converted matrix is exactly real
— which, by the C4/C6 counterexample, is *not* guaranteed by `M` being
Hermitian — the Standard→Gell-Mann conversion succeeds and converting
its result back to the Standard basis reproduces `M` exactly;
analogously for the Pauli-product basis (whose transform models the
code's when every block dimension is a power of two). -/
theorem basisChg_roundtrip_spec (s : DimSpec)
    (M : Matrix (Fin (gateDim s)) (Fin (gateDim s)) ℂ) :
    (IsUnit (gmToStdMat (gateDim s) s).det →
      (∀ i j, (((gmToStdMat (gateDim s) s)⁻¹ * M * gmToStdMat (gateDim s) s) i j).im = 0) →
      ∃ R, basisChg_StdToGellMann (gateDim s) s M = Except.ok R ∧
        basisChg_GellMannToStd (gateDim s) s (R.map (fun x : ℝ => (x : ℂ))) = M) ∧
    (IsUnit (ppToStdMat (gateDim s) s).det →
      (∀ i j, (((ppToStdMat (gateDim s) s)⁻¹ * M * ppToStdMat (gateDim s) s) i j).im = 0) →
      ∃ R, basisChg_StdToPauliProd (gateDim s) s M = Except.ok R ∧
        basisChg_PauliProdToStd (gateDim s) s (R.map (fun x : ℝ => (x : ℂ))) = M) := by
  constructor
  · intro hT him
    refine ⟨((gmToStdMat (gateDim s) s)⁻¹ * M * gmToStdMat (gateDim s) s).map Complex.re,
      ?_, ?_⟩
    · rw [basisChg_gm_unfold]
      rw [if_neg (by rw [imNorm_zero_of_real him]; norm_num)]
    · rw [basisChg_GellMannToStd, map_re_ofReal_of_real him, conj_roundtrip _ _ hT]
  · intro hT him
    refine ⟨((ppToStdMat (gateDim s) s)⁻¹ * M * ppToStdMat (gateDim s) s).map Complex.re,
      ?_, ?_⟩
    · rw [basisChg_pp_unfold]
      rw [if_neg (by rw [imNorm_zero_of_real him]; norm_num)]
    · rw [basisChg_PauliProdToStd, map_re_ofReal_of_real him, conj_roundtrip _ _ hT]

/-! ### A Hermitian matrix the Std→Gell-Mann conversion rejects

For `dimOrBlockDims = 2` the transform columns are the flattened
normalized Pauli matrices; the Hermitian (indeed real diagonal) gate
matrix `diag(0,-1,1,0)` converts to `i·(E₁₂ - E₂₁)`, which is purely
imaginary off the diagonal, so the conversion raises. -/

theorem normalizedGM_single2 :
    GetNormalizedGellMannMatrices (DimSpec.single 2) =
      [cmulR (1 / Real.sqrt 2) (idMat 2), cmulR (1 / Real.sqrt 2) (gmSym 0 1),
       cmulR (1 / Real.sqrt 2) (gmAntisym 0 1), cmulR (1 / Real.sqrt 2) (gmLastDiag 2)] := by
  rw [GetNormalizedGellMannMatrices]
  have h : GetGellMannMatrices (DimSpec.single 2) =
      [idMat 2, gmSym 0 1, gmAntisym 0 1, gmLastDiag 2] := rfl
  rw [h]
  have h2 : (dmDim (DimSpec.single 2) : ℝ) = 2 := by simp [dmDim]
  simp [h2]

/-- The d = 2 Gell-Mann transform matrix before the `1/√2`
normalization: columns are the flattened Pauli matrices `I, X, Y, Z`. -/
noncomputable def gmT0 : Matrix (Fin 4) (Fin 4) ℂ :=
  !![1, 0, 0, 1; 0, 1, -Complex.I, 0; 0, 1, Complex.I, 0; 1, 0, 0, -1]

/-- The Hermitian (real diagonal) counterexample input
`diag(0, -1, 1, 0)`. -/
noncomputable def M0cex : Matrix (Fin 4) (Fin 4) ℂ :=
  !![0, 0, 0, 0; 0, -1, 0, 0; 0, 0, 1, 0; 0, 0, 0, 0]

/-- Its Gell-Mann image `i·(E₁₂ - E₂₁)`. -/
noncomputable def gmCex : Matrix (Fin 4) (Fin 4) ℂ :=
  !![0, 0, 0, 0; 0, 0, Complex.I, 0; 0, -Complex.I, 0, 0; 0, 0, 0, 0]

open Matrix in
theorem gmT0_adj_mul : gmT0ᴴ * gmT0 = (2 : ℂ) • 1 := by
  ext i j
  fin_cases i <;> fin_cases j <;>
    simp [gmT0, Matrix.mul_apply, Fin.sum_univ_four, Matrix.conjTranspose_apply,
      Matrix.one_apply, Matrix.vecHead, Matrix.vecTail, Complex.ext_iff] <;>
    norm_num

open Matrix in
theorem gmT0_adj_M0_mul : gmT0ᴴ * M0cex * gmT0 = (2 : ℂ) • gmCex := by
  ext i j
  fin_cases i <;> fin_cases j <;>
    simp [gmT0, M0cex, gmCex, Matrix.mul_apply, Fin.sum_univ_four,
      Matrix.conjTranspose_apply, Matrix.vecHead, Matrix.vecTail, Complex.ext_iff] <;>
    norm_num

theorem mul_self_invSqrt2 :
    ((1 / Real.sqrt 2 : ℝ) : ℂ) * ((1 / Real.sqrt 2 : ℝ) : ℂ) * 2 = 1 := by
  rw [← Complex.ofReal_mul]
  rw [show (1 / Real.sqrt 2) * (1 / Real.sqrt 2) = 1 / 2 by
    rw [div_mul_div_comm, one_mul, Real.mul_self_sqrt (by norm_num : (0:ℝ) ≤ 2)]]
  push_cast
  norm_num

open Matrix in
theorem gmT2_unitary :
    (((1 / Real.sqrt 2 : ℝ) : ℂ) • gmT0)ᴴ * (((1 / Real.sqrt 2 : ℝ) : ℂ) • gmT0) = 1 := by
  rw [Matrix.conjTranspose_smul, Matrix.smul_mul, Matrix.mul_smul, gmT0_adj_mul,
    smul_smul, smul_smul]
  rw [Complex.star_def, Complex.conj_ofReal, mul_self_invSqrt2, one_smul]

open Matrix in
theorem gmT2_image :
    (((1 / Real.sqrt 2 : ℝ) : ℂ) • gmT0)ᴴ * M0cex * (((1 / Real.sqrt 2 : ℝ) : ℂ) • gmT0)
      = gmCex := by
  rw [Matrix.conjTranspose_smul, Matrix.smul_mul, Matrix.mul_smul, Matrix.smul_mul,
    gmT0_adj_M0_mul, smul_smul, smul_smul]
  rw [Complex.star_def, Complex.conj_ofReal, mul_self_invSqrt2, one_smul]

open Matrix in
theorem basisAux_single2 (i j : ℕ) (hi : i < 4) (hj : j < 4) :
    basisToStdAux (fun b => GetNormalizedGellMannMatrices (.single b)) 0 [2] i j
      = (((1 / Real.sqrt 2 : ℝ) : ℂ) • gmT0) ⟨i, hi⟩ ⟨j, hj⟩ := by
  interval_cases i <;> interval_cases j <;>
    simp [basisToStdAux, normalizedGM_single2, cmulR, idMat, gmSym, gmAntisym,
      gmLastDiag, gmT0, zeroM, List.getD, Matrix.vecHead, Matrix.vecTail] <;>
    norm_num [Real.sqrt_one]

open Matrix in
theorem gmToStdMat_single2 :
    gmToStdMat 4 (DimSpec.single 2) = ((1 / Real.sqrt 2 : ℝ) : ℂ) • gmT0 := by
  ext i j
  have h := basisAux_single2 i.val j.val i.isLt j.isLt
  simpa [gmToStdMat, blockDims] using h

open Matrix in
theorem gmToStd2_unitary :
    (gmToStdMat 4 (DimSpec.single 2))ᴴ * gmToStdMat 4 (DimSpec.single 2) = 1 := by
  rw [gmToStdMat_single2]
  exact gmT2_unitary

theorem gmToStd2_det : IsUnit (gmToStdMat 4 (DimSpec.single 2)).det :=
  Matrix.isUnit_det_of_left_inverse gmToStd2_unitary

open Matrix in
theorem gmToStd2_inv :
    (gmToStdMat 4 (DimSpec.single 2))⁻¹ = (gmToStdMat 4 (DimSpec.single 2))ᴴ :=
  Matrix.inv_eq_left_inv gmToStd2_unitary

theorem gm_image_M0cex :
    (gmToStdMat 4 (DimSpec.single 2))⁻¹ * M0cex * gmToStdMat 4 (DimSpec.single 2) = gmCex := by
  rw [gmToStd2_inv, gmToStdMat_single2]
  exact gmT2_image

theorem imNorm_gmCex : imNorm gmCex = Real.sqrt 2 := by
  have h : (∑ i, ∑ j, (gmCex i j).im ^ 2) = 2 := by
    simp [gmCex, Fin.sum_univ_four, Matrix.vecHead, Matrix.vecTail]
    norm_num
  rw [imNorm, h]

open Matrix in
theorem M0cex_hermitian : M0cex.IsHermitian := by
  ext i j
  fin_cases i <;> fin_cases j <;>
    simp [M0cex, Matrix.conjTranspose_apply, Matrix.vecHead, Matrix.vecTail,
      Complex.ext_iff]

theorem basisChg_M0cex_error :
    basisChg_StdToGellMann 4 (DimSpec.single 2) M0cex =
      Except.error "Gell-Mann matrix has non-zero imaginary part" := by
  rw [basisChg_gm_unfold, gm_image_M0cex, imNorm_gmCex]
  rw [if_pos (by
    have h2 : (1:ℝ) ≤ Real.sqrt 2 := by
      rw [show (1:ℝ) = Real.sqrt 1 from (Real.sqrt_one).symm]
      exact Real.sqrt_le_sqrt (by norm_num)
    have h3 : (1 / 10 ^ 8 : ℝ) < 1 := by norm_num
    linarith)]

/-- C6 (counterexample).  A Hermitian — in fact real, diagonal —
Standard-basis gate matrix of the matching space dimension for
`dimOrBlockDims = 2` on which `basisChg_StdToGellMann` raises: its
Gell-Mann image is `i·(E₁₂ - E₂₁)`, with imaginary-part norm `√2 > 1e-8`.
This refutes "for every Hermitian Standard-basis input the conversion
succeeds and returns a real result". -/
theorem stdToGellMann_hermitian_input_fails :
    M0cex.IsHermitian ∧
    basisChg_StdToGellMann 4 (DimSpec.single 2) M0cex =
      Except.error "Gell-Mann matrix has non-zero imaginary part" :=
  ⟨M0cex_hermitian, basisChg_M0cex_error⟩

/-- C4 (counterexample).  For the Hermitian matrix `diag(0,-1,1,0)` and
structure `2`, the Standard→Gell-Mann conversion does not succeed at
all, so the Standard→Gell-Mann→Standard round trip cannot reproduce it
(there is no converted value to send back).  This refutes "for every
Hermitian square matrix M of the matching space dimension, converting M
from the Standard basis to the Gell-Mann basis and back reproduces M". -/
theorem stdToGellMann_roundtrip_fails_on_hermitian :
    M0cex.IsHermitian ∧
    ∀ R, basisChg_StdToGellMann 4 (DimSpec.single 2) M0cex ≠ Except.ok R :=
  ⟨M0cex_hermitian, fun R h => by
    rw [basisChg_M0cex_error] at h
    exact Except.noConfusion h⟩

/-! ## The non-gauge projector (gateset.py:632-855)

`get_nongauge_projector` builds `M = [dP | dG]` (`dP` the model's
element-vs-parameter derivative, `dG` the columns of infinitesimal gauge
actions), takes an (orthonormal) basis of the right nullspace of `M` via
`numpy.linalg.svd`, truncates its vectors to their first `num_params`
coordinates (`gen_dG`), forms `P = gen_dG · gen_dGᵀ`, normalizes
`Pp = pinv(P) · P`, and returns `I - Pp`.  numpy's `svd` and `pinv` are
library internals, so they are embedded relationally: any matrix whose
columns are a basis of `ker M` stands for the nullspace output (the
properties at issue depend only on the span), and any matrix satisfying
the four Moore-Penrose equations stands for `pinv(P)` (`pinv` computes
the unique such matrix; in exact arithmetic the tolerance-`1e-7` rank
cutoffs of the code are exact ranks). -/

namespace Op

/-- Modelled from the spec §4.2: `derivWrtParams()`, the
`(elementCount, numParams)` derivative of raw elements with respect to
parameters — "for Full, this is the identity restricted to free
positions; for Static, an all-zero `elementCount × 0` matrix"; for the
TP variants the fixed first row/element contributes zero rows and the
free part the identity. -/
def derivEntry : Op → ℕ → ℕ → ℚ
  | full v, r, c => if r = c ∧ r < v.length then 1 else 0
  | tpGate d rest, r, c => if r = d + c ∧ c < rest.length then 1 else 0
  | tpVec _ rest, r, c => if r = 1 + c ∧ c < rest.length then 1 else 0
  | static _, _, _ => 0

end Op

namespace GateSetM

/-- The block-placement loop of `GateSet.deriv_wrt_params`
(gateset.py:600-629): `deriv[eo:eo+ne, po:po+np] = obj.deriv_wrt_params()`
walking the fixed operator order with element offset `eo` and parameter
offset `po` (blocks are disjoint, so summing the contributions equals
the single write). -/
def derivBlocks : List Op → ℕ → ℕ → ℕ → ℕ → ℚ
  | [], _, _, _, _ => 0
  | op :: rest, eo, po, r, c =>
    (if eo ≤ r ∧ r < eo + op.size ∧ po ≤ c ∧ c < po + op.numParams then
       op.derivEntry (r - eo) (c - po)
     else 0) + derivBlocks rest (eo + op.size) (po + op.numParams) r c

/-- `GateSet.deriv_wrt_params` (gateset.py:600-629), as an entry
function on `(element index, parameter index)`. -/
def deriv_wrt_params (gs : GateSetM) : ℕ → ℕ → ℚ :=
  derivBlocks ((allOps gs).map Prod.snd) 0 0

/-- Column `i*dim + j` of `dG` (gateset.py:745-760): the fully
parameterized scratch model holds `K_ab·ρ` for every prep,
`-(Eᵀ·K_ab)ᵀ = -K_abᵀ·E` for every effect and `K_ab·G - G·K_ab` for every
gate (`K_ab` the `(a,b)` matrix unit), and `gsDeriv.to_vector()`
flattens them in the fixed order preps → effects → gates, gate matrices
row-major. -/
def dGcolumn (d : ℕ) (gs : GateSetM) (a b : ℕ) : List ℚ :=
  (gs.preps.flatMap fun p => (List.range d).map fun r =>
      if r = a then p.2.raw.getD b 0 else 0)
    ++ (gs.effects.flatMap fun p => (List.range d).map fun r =>
      if r = b then -(p.2.raw.getD a 0) else 0)
    ++ (gs.gates.flatMap fun p => (List.range d).flatMap fun r =>
      (List.range d).map fun c =>
        (if r = a then p.2.raw.getD (d * b + c) 0 else 0)
          - (if c = b then p.2.raw.getD (d * r + a) 0 else 0))

/-- `M = np.concatenate((dP, dG), axis=1)` (gateset.py:770), over ℝ.
`ne`, `npars` and `d` are the numpy shapes `num_elements()`,
`num_params()` and `self._dim`; the claims instantiate them so. -/
noncomputable def MmatR (ne npars d : ℕ) (gs : GateSetM) :
    Matrix (Fin ne) (Fin (npars + d ^ 2)) ℝ :=
  Matrix.of fun r c =>
    if (c : ℕ) < npars then ((deriv_wrt_params gs r c : ℚ) : ℝ)
    else (((dGcolumn d gs (((c : ℕ) - npars) / d) (((c : ℕ) - npars) % d)).getD r 0 : ℚ) : ℝ)

/-- Every prep/effect vector has `dim` raw elements and every gate
matrix `dim²` (the GateSet shape invariant). -/
def WellFormed (gs : GateSetM) (d : ℕ) : Prop :=
  (∀ p ∈ gs.preps, p.2.raw.length = d) ∧
  (∀ p ∈ gs.effects, p.2.raw.length = d) ∧
  (∀ p ∈ gs.gates, p.2.raw.length = d * d)

end GateSetM

/-- The contract of `nullspace(M)` (gateset.py:772-777): `numpy.linalg.svd`
returns orthonormal rows `vh`, of which the rows beyond the (tolerance)
rank span the right nullspace; so the returned matrix's `k` columns are
a basis of `ker M` — membership (`M * N = 0`), independence
(`N.rank = k`) and spanning (by dimension count,
`M.rank + k = n`). -/
def IsNullspaceBasis {m n k : ℕ} (M : Matrix (Fin m) (Fin n) ℝ)
    (N : Matrix (Fin n) (Fin k) ℝ) : Prop :=
  M * N = 0 ∧ N.rank = k ∧ M.rank + k = n

open Matrix in
/-- The contract of `np.linalg.pinv(P)` (gateset.py:827): the
Moore-Penrose conditions, which determine `pinv(P)` uniquely. -/
def IsMoorePenrose {n : ℕ} (P A : Matrix (Fin n) (Fin n) ℝ) : Prop :=
  P * A * P = P ∧ A * P * A = A ∧ (P * A)ᵀ = P * A ∧ (A * P)ᵀ = A * P

/-- `gen_dG = nullsp[0:nParams,:]` (gateset.py:778): the first `npars`
coordinates of each nullspace basis vector. -/
def genDGmat {npars d2 k : ℕ} (N : Matrix (Fin (npars + d2)) (Fin k) ℝ) :
    Matrix (Fin npars) (Fin k) ℝ :=
  Matrix.of fun r c => N (Fin.castAdd d2 r) c

open Matrix in
/-- `P = np.dot(gen_dG, np.transpose(gen_dG))` (gateset.py:826). -/
def PmatOf {npars d2 k : ℕ} (N : Matrix (Fin (npars + d2)) (Fin k) ℝ) :
    Matrix (Fin npars) (Fin npars) ℝ :=
  genDGmat N * (genDGmat N)ᵀ

/-- `Pp = np.dot(np.linalg.pinv(P, rcond=1e-7), P)` (gateset.py:827),
with `A` standing for the pseudo-inverse. -/
def PpOf {npars d2 k : ℕ} (N : Matrix (Fin (npars + d2)) (Fin k) ℝ)
    (A : Matrix (Fin npars) (Fin npars) ℝ) : Matrix (Fin npars) (Fin npars) ℝ :=
  A * PmatOf N

/-- `ret = np.identity(nParams) - Pp` (gateset.py:837), the returned
non-gauge projector. -/
def nongaugeProjectorOf {npars d2 k : ℕ} (N : Matrix (Fin (npars + d2)) (Fin k) ℝ)
    (A : Matrix (Fin npars) (Fin npars) ℝ) : Matrix (Fin npars) (Fin npars) ℝ :=
  1 - PpOf N A

/-- `GateSet.num_nongauge_params` (gateset.py:504-515): the rank of the
returned non-gauge projector (code: `matrix_rank(P, P_RANK_TOL)` with
tolerance `1e-7`; exact rank in exact arithmetic). -/
noncomputable def numNonGaugeOf {npars d2 k : ℕ} (N : Matrix (Fin (npars + d2)) (Fin k) ℝ)
    (A : Matrix (Fin npars) (Fin npars) ℝ) : ℕ :=
  (nongaugeProjectorOf N A).rank

/-! ### Rank lemmas for idempotent matrices -/

theorem mulVecLin_one_sub {n : ℕ} (E : Matrix (Fin n) (Fin n) ℝ) :
    Matrix.mulVecLin (1 - E) = LinearMap.id - Matrix.mulVecLin E := by
  refine LinearMap.ext fun v => ?_
  simp [Matrix.mulVecLin_apply, Matrix.sub_mulVec, Matrix.one_mulVec]

theorem rank_add_rank_one_sub {n : ℕ} {E : Matrix (Fin n) (Fin n) ℝ}
    (h : E * E = E) : E.rank + (1 - E).rank = n := by
  classical
  set e := Matrix.mulVecLin E with he
  set f := (LinearMap.id : (Fin n → ℝ) →ₗ[ℝ] Fin n → ℝ) - e with hf
  have hee : e ∘ₗ e = e := by
    rw [he, ← Matrix.mulVecLin_mul, h]
  have hsup : LinearMap.range e ⊔ LinearMap.range f = ⊤ := by
    rw [Submodule.eq_top_iff']
    intro x
    have hx : x = e x + f x := by
      rw [hf]
      simp
    rw [hx]
    exact Submodule.add_mem_sup (LinearMap.mem_range_self e x)
      (LinearMap.mem_range_self f x)
  have hinf : LinearMap.range e ⊓ LinearMap.range f = ⊥ := by
    rw [Submodule.eq_bot_iff]
    rintro x ⟨⟨a, ha⟩, ⟨b, hb⟩⟩
    have h1 : e x = x := by
      rw [← ha]
      calc e (e a) = (e ∘ₗ e) a := rfl
      _ = e a := by rw [hee]
    have h2 : e x = 0 := by
      rw [← hb]
      have hx2 : e (f b) = (e ∘ₗ f) b := rfl
      rw [hx2]
      have hcomp : e ∘ₗ f = 0 := by
        rw [hf, LinearMap.comp_sub, hee]
        simp
      rw [hcomp]
      rfl
    rw [← h1, h2]
  have hdim := Submodule.finrank_sup_add_finrank_inf_eq
    (LinearMap.range e) (LinearMap.range f)
  rw [hsup, hinf, finrank_top, finrank_bot, Module.finrank_fin_fun, add_zero] at hdim
  have hrank1 : E.rank = Module.finrank ℝ (LinearMap.range e) := rfl
  have hrank2 : (1 - E).rank = Module.finrank ℝ (LinearMap.range f) := by
    rw [Matrix.rank, mulVecLin_one_sub, hf]
  rw [hrank1, hrank2]
  omega

open Matrix in
/-- C1 (amended).  For every GateSet (with its shape invariant), every
nullspace basis `N` of `M = [dP | dG]` and every Moore-Penrose inverse
`A` of `P = gen_dG·gen_dGᵀ`: the normalized gauge projector
`P' = pinv(P)·P` is idempotent (exactly, in exact arithmetic),
`rank(P) = rank(P')`, `rank(P') + rank(I-P') = num_params()`, and
`num_nongauge_params()` is the rank of the returned `I-P'`.  This is
what the code itself asserts (gateset.py:847-854); the original claim's
chain `rank(P') == rank(I-P')` does not hold (see the
counterexample). -/
theorem nongauge_projector_spec (ne npars d k : ℕ) (gs : GateSetM)
    (N : Matrix (Fin (npars + d ^ 2)) (Fin k) ℝ)
    (A : Matrix (Fin npars) (Fin npars) ℝ)
    (hdim : gs.dim = some d) (hwf : GateSetM.WellFormed gs d)
    (hne : ne = GateSetM.num_elements gs) (hnp : npars = GateSetM.num_params gs)
    (hN : IsNullspaceBasis (GateSetM.MmatR ne npars d gs) N)
    (hA : IsMoorePenrose (PmatOf N) A) :
    PpOf N A * PpOf N A = PpOf N A ∧
    (PmatOf N).rank = (PpOf N A).rank ∧
    (PpOf N A).rank + (nongaugeProjectorOf N A).rank = npars ∧
    numNonGaugeOf N A = (nongaugeProjectorOf N A).rank := by
  obtain ⟨h1, h2, h3, h4⟩ := hA
  have hidem : PpOf N A * PpOf N A = PpOf N A := by
    simp only [PpOf]
    rw [Matrix.mul_assoc A (PmatOf N) (A * PmatOf N),
      ← Matrix.mul_assoc (PmatOf N) A (PmatOf N), h1]
  refine ⟨hidem, ?_, ?_, rfl⟩
  · refine le_antisymm ?_ (Matrix.rank_mul_le_right A (PmatOf N))
    have hPfix : PmatOf N = PmatOf N * PpOf N A := by
      simp only [PpOf]
      rw [← Matrix.mul_assoc (PmatOf N) A (PmatOf N), h1]
    calc (PmatOf N).rank = (PmatOf N * PpOf N A).rank := by rw [← hPfix]
    _ ≤ (PpOf N A).rank := Matrix.rank_mul_le_right _ _
  · have := rank_add_rank_one_sub hidem
    simpa [nongaugeProjectorOf] using this

/-- The one-parameter GateSet used by the C1 counterexample and
witness: a single fully parameterized prep vector `[1]`, dimension 1. -/
def gsC1 : GateSetM :=
  { preps := [("rho0", Op.full [1])]
    effects := []
    gates := []
    povmIdentity := none
    spamdefs := []
    dim := some 1
    basisName := "unknown"
    basisDim := none }

/-- For `gsC1`, `M = [dP | dG] = [1 | 1]`; the nullspace of `[1 1]` is
spanned by `(1, -1)`. -/
noncomputable def N1cex : Matrix (Fin 2) (Fin 1) ℝ :=
  Matrix.of ![![1], ![-1]]

/-- `P = gen_dG·gen_dGᵀ = [1]` here, whose pseudo-inverse is `[1]`. -/
noncomputable def A1cex : Matrix (Fin 1) (Fin 1) ℝ :=
  Matrix.of ![![1]]

theorem gsC1_wf : GateSetM.WellFormed gsC1 1 := by
  refine ⟨?_, ?_, ?_⟩ <;> simp [gsC1, Op.raw]

theorem deriv_gsC1 : GateSetM.deriv_wrt_params gsC1 0 0 = 1 := by
  simp [GateSetM.deriv_wrt_params, GateSetM.derivBlocks, GateSetM.allOps, gsC1,
    Op.derivEntry, Op.size, Op.numParams, Op.raw]

theorem dGcolumn_gsC1 : GateSetM.dGcolumn 1 gsC1 0 0 = [1] := by decide

theorem MmatR_gsC1 : GateSetM.MmatR 1 1 1 gsC1 = Matrix.of ![![1, 1]] := by
  ext r c
  fin_cases r <;> fin_cases c
  · simp [GateSetM.MmatR, deriv_gsC1]
  · simp [GateSetM.MmatR, dGcolumn_gsC1]

theorem genDG_N1cex : @genDGmat 1 (1 ^ 2) 1 N1cex = Matrix.of ![![(1 : ℝ)]] := by
  ext r c
  fin_cases r
  fin_cases c
  simp [genDGmat, N1cex, Fin.castAdd]

open Matrix in
theorem Pmat_N1cex : @PmatOf 1 (1 ^ 2) 1 N1cex = 1 := by
  rw [PmatOf, genDG_N1cex]
  ext r c
  fin_cases r
  fin_cases c
  simp [Matrix.mul_apply, Matrix.one_apply, Matrix.transpose_apply]

theorem A1cex_eq_one : A1cex = 1 := by
  ext r c
  fin_cases r
  fin_cases c
  simp [A1cex, Matrix.one_apply]

theorem moorePenrose_A1cex : IsMoorePenrose (@PmatOf 1 (1 ^ 2) 1 N1cex) A1cex := by
  rw [Pmat_N1cex, A1cex_eq_one]
  refine ⟨?_, ?_, ?_, ?_⟩ <;> simp

theorem rank_fin_one {M : Matrix (Fin 1) (Fin 1) ℝ} (h : M 0 0 ≠ 0) :
    M.rank = 1 := by
  have hu : IsUnit M := by
    rw [Matrix.isUnit_iff_isUnit_det, Matrix.det_fin_one]
    exact h.isUnit
  rw [Matrix.rank_of_isUnit M hu]
  simp

theorem N1cex_entries : N1cex 0 0 = 1 ∧ N1cex 1 0 = -1 := by
  constructor <;> simp [N1cex]

open Matrix in
theorem nullspaceBasis_N1cex :
    IsNullspaceBasis (GateSetM.MmatR 1 1 1 gsC1) N1cex := by
  refine ⟨?_, ?_, ?_⟩
  · rw [MmatR_gsC1]
    ext r c
    fin_cases r
    fin_cases c
    simp [Matrix.mul_apply, Fin.sum_univ_two, N1cex, Matrix.vecHead, Matrix.vecTail]
  · have h : (N1cexᵀ * N1cex).rank = N1cex.rank := Matrix.rank_transpose_mul_self N1cex
    have h2 : N1cexᵀ * N1cex = Matrix.of ![![(2 : ℝ)]] := by
      ext r c
      fin_cases r
      fin_cases c
      simp [Matrix.mul_apply, Fin.sum_univ_two, N1cex, Matrix.transpose_apply,
        N1cex_entries.1, N1cex_entries.2, Matrix.vecHead, Matrix.vecTail]
      norm_num
    rw [← h, h2, rank_fin_one (by norm_num [Matrix.of_apply])]
  · have h : (GateSetM.MmatR 1 1 1 gsC1
        * (GateSetM.MmatR 1 1 1 gsC1)ᵀ).rank = (GateSetM.MmatR 1 1 1 gsC1).rank :=
      Matrix.rank_self_mul_transpose _
    have h2 : GateSetM.MmatR 1 1 1 gsC1 * (GateSetM.MmatR 1 1 1 gsC1)ᵀ
        = Matrix.of ![![(2 : ℝ)]] := by
      rw [MmatR_gsC1]
      ext r c
      fin_cases r
      fin_cases c
      simp [Matrix.mul_apply, Fin.sum_univ_two, Matrix.transpose_apply,
        Matrix.vecHead, Matrix.vecTail]
      norm_num
    rw [← h, h2, rank_fin_one (by norm_num [Matrix.of_apply])]
    norm_num

theorem Pp_N1cex : @PpOf 1 (1 ^ 2) 1 N1cex A1cex = 1 := by
  rw [PpOf, Pmat_N1cex, A1cex_eq_one, Matrix.mul_one]

theorem ret_N1cex : @nongaugeProjectorOf 1 (1 ^ 2) 1 N1cex A1cex = 0 := by
  rw [nongaugeProjectorOf, Pp_N1cex, sub_self]

/-- C1 (counterexample).  For the one-parameter GateSet `gsC1` — a
legitimate, well-formed model — the gauge projector pipeline gives
`P' = [1]` and `I - P' = [0]`, so `rank(P') = 1 ≠ 0 = rank(I-P')`: the
claimed chain `rank(P) == rank(P') == rank(I-P')` is false.  (The code's
own assertions — `rank(P) == rank(P')` and
`rank(I-P') == num_params() - rank(P)` — do hold here.) -/
theorem nongauge_rank_chain_counterexample :
    IsNullspaceBasis (GateSetM.MmatR 1 1 1 gsC1) N1cex ∧
    IsMoorePenrose (@PmatOf 1 (1 ^ 2) 1 N1cex) A1cex ∧
    GateSetM.WellFormed gsC1 1 ∧ gsC1.dim = some 1 ∧
    1 = GateSetM.num_elements gsC1 ∧ 1 = GateSetM.num_params gsC1 ∧
    (@PpOf 1 (1 ^ 2) 1 N1cex A1cex).rank = 1 ∧
    (@nongaugeProjectorOf 1 (1 ^ 2) 1 N1cex A1cex).rank = 0 ∧
    (@PpOf 1 (1 ^ 2) 1 N1cex A1cex).rank
      ≠ (@nongaugeProjectorOf 1 (1 ^ 2) 1 N1cex A1cex).rank := by
  have hPp : (@PpOf 1 (1 ^ 2) 1 N1cex A1cex).rank = 1 := by
    rw [Pp_N1cex, Matrix.rank_one]
    simp
  have hret : (@nongaugeProjectorOf 1 (1 ^ 2) 1 N1cex A1cex).rank = 0 := by
    rw [ret_N1cex, Matrix.rank_zero]
  exact ⟨nullspaceBasis_N1cex, moorePenrose_A1cex, gsC1_wf, rfl, by decide, by decide,
    hPp, hret, by omega⟩

/-- Witness for the amended C1 theorem at the concrete `gsC1` pipeline. -/
theorem nongauge_projector_spec_witness :
    @PpOf 1 (1 ^ 2) 1 N1cex A1cex * @PpOf 1 (1 ^ 2) 1 N1cex A1cex
        = @PpOf 1 (1 ^ 2) 1 N1cex A1cex ∧
    (@PmatOf 1 (1 ^ 2) 1 N1cex).rank = (@PpOf 1 (1 ^ 2) 1 N1cex A1cex).rank ∧
    (@PpOf 1 (1 ^ 2) 1 N1cex A1cex).rank
        + (@nongaugeProjectorOf 1 (1 ^ 2) 1 N1cex A1cex).rank = 1 :=
  have h := nongauge_projector_spec 1 1 1 1 gsC1 N1cex A1cex rfl gsC1_wf
    (by decide) (by decide) nullspaceBasis_N1cex moorePenrose_A1cex
  ⟨h.1, h.2.1, h.2.2.1⟩

end PyGSTi
